import Mathlib

/-!
Verification of the metadata-cache repository of rclone-plus.

The development shallowly embeds the item repository of
src/fs/dbmeta/origin_cache_item.go and the helper
src/backend/hybridzfs/utils.gp.go.

Modelling decisions:
- The SQLite table item_list is a list of rows (`Store`); the unique index
  on (parent_path, name) is the predicate `UniqueKeys`.
- The external JSON decoder (jsoniter) is a parameter
  `decode : Blob -> Option Info`; the Go zero value of `Info` is `Info.zero`.
- Wall-clock time is a parameter `now : Int` (unix seconds).
- gorm's `First` is `List.find?` in insertion (rowid) order; `FindInBatches`
  is chunked iteration (`chunkList`) in the same order, batch size 1000.
- The direct UPDATE of RenameItem hits the UNIQUE constraint exactly when a
  row matches the old key, the new key differs from the old key, and a row
  already holds the new key; in that case the code runs the delete-then-update
  transaction, which the model performs as one step.
- `map[string]interface{}` column updates of ModifyItem are a `FieldMap`,
  restricted to the schema's columns with their natural value kinds; an
  unknown column surfaces as a store error, as in SQL.
-/

namespace RclonePlus

/-- Byte blob, the contents of the `info` BLOB column ([]byte in Go). -/
abbrev Blob := List UInt8

/-- fs.EntryType of rclone: EntryObject or EntryDirectory. -/
inductive EntryType
  | object
  | directory
deriving DecidableEq

/-- Info payload of origin_cache_item.go (times as unix numbers, byte
ranges as pairs). -/
structure Info where
  modTime : Int
  aTime : Int
  size : Int
  rs : List (Int × Int)
  fingerprint : String
  dirty : Bool
deriving DecidableEq

/-- The Go zero value of Info, left in place by UpsertItem when the entry is
not an object and the blob is therefore never decoded. -/
def Info.zero : Info := ⟨0, 0, 0, [], "", false⟩

/-- One row of table item_list (struct Item of origin_cache_item.go). -/
structure Item where
  parentPath : String
  name : String
  type : EntryType
  size : Int
  state : Int
  sha1 : String
  createdAt : Int
  updatedAt : Int
  info : Blob
deriving DecidableEq

/-- The table contents, in rowid (insertion) order. -/
abbrev Store := List Item

/-- Errors surfaced by the repository operations which the claims mention. -/
inductive DbError
  | decodeFailed
  | notFound
  | invalidColumn
deriving DecidableEq

/-- Decidable equality for repository results. -/
instance : DecidableEq (Except DbError Item) := fun a b =>
  match a, b with
  | .error x, .error y =>
    if h : x = y then isTrue (by rw [h]) else isFalse (by intro hc; cases hc; exact h rfl)
  | .ok x, .ok y =>
    if h : x = y then isTrue (by rw [h]) else isFalse (by intro hc; cases hc; exact h rfl)
  | .error _, .ok _ => isFalse (by intro hc; cases hc)
  | .ok _, .error _ => isFalse (by intro hc; cases hc)

/-- Does row r match the key (d, n), i.e. the WHERE
parent_path=? AND name=? clause used by every keyed operation. -/
def keyMatch (r : Item) (d n : String) : Bool :=
  decide (r.parentPath = d ∧ r.name = n)

/-- First row matching key (d, n), in rowid order (gorm's First). -/
def rowAt (st : Store) (d n : String) : Option Item :=
  st.find? (fun r => keyMatch r d n)

/-- The unique index idx_u_item on (parent_path, name): no two rows of the
table share a key. -/
def UniqueKeys (st : Store) : Prop :=
  st.Pairwise (fun a b => ¬(a.parentPath = b.parentPath ∧ a.name = b.name))

instance (st : Store) : Decidable (UniqueKeys st) :=
  inferInstanceAs (Decidable (st.Pairwise _))

/-- The path separator used by filepath.Split on linux. -/
def separator : Char := '/'

/-- filepath.Split at the list-of-characters level: everything up to and
including the final separator, and the remainder. -/
def splitP : List Char → List Char × List Char
  | [] => ([], [])
  | c :: cs =>
    if (splitP cs).1.isEmpty then
      if c = separator then ([c], cs) else ([], c :: cs)
    else (c :: (splitP cs).1, (splitP cs).2)

/-- filepath.Split(name) = (parentDir, itemName), applied by DeleteItem,
ModifyItem, RenameItem and GetItem to form the lookup key. -/
def splitPath (p : String) : String × String :=
  (String.mk (splitP p.data).1, String.mk (splitP p.data).2)

/-- The DoUpdates assignment list of UpsertItem's OnConflict clause: set
updated_at, sha1, size, info; every other column is untouched. -/
def upsertApply (now : Int) (payload : Info) (it : Item) (r : Item) : Item :=
  { r with updatedAt := now
         , sha1 := payload.fingerprint
         , size := payload.size
         , info := it.info }

/-- The Create call of UpsertItem with its OnConflict((parent_path, name))
clause: on key conflict run the DoUpdates assignments on the conflicting
row, otherwise insert the row (gorm autoCreateTime / autoUpdateTime fill
zero-valued timestamps with the current time). -/
def upsertWrite (now : Int) (st : Store) (it : Item) (payload : Info) : Store :=
  if st.any (fun r => keyMatch r it.parentPath it.name) then
    st.map (fun r => if keyMatch r it.parentPath it.name
                     then upsertApply now payload it r else r)
  else
    st ++ [{ it with createdAt := if it.createdAt = 0 then now else it.createdAt
                   , updatedAt := if it.updatedAt = 0 then now else it.updatedAt }]

/-- UpsertItem: for an object entry the info blob is decoded first and a
decode failure returns the error with no write; then the conflict-aware
Create runs. -/
def UpsertItem (decode : Blob → Option Info) (now : Int) (st : Store)
    (it : Item) : Option DbError × Store :=
  if it.type = EntryType.object then
    match decode it.info with
    | none => (some DbError.decodeFailed, st)
    | some payload => (none, upsertWrite now st it payload)
  else
    (none, upsertWrite now st it Info.zero)

/-- The DELETE statement keyed on (parent_path, name); deleting an absent
key affects zero rows and is no error. -/
def deleteByKey (d n : String) (st : Store) : Option DbError × Store :=
  (none, st.filter (fun r => !(keyMatch r d n)))

/-- DeleteItem: split the path with filepath.Split, delete the matching row. -/
def DeleteItem (p : String) (st : Store) : Option DbError × Store :=
  deleteByKey (splitPath p).1 (splitPath p).2 st

/-- One value of the map[string]interface{} passed to ModifyItem, restricted
to the kinds the schema's columns hold. -/
inductive Val
  | i (n : Int)
  | s (v : String)
  | b (v : Blob)
  | t (v : EntryType)
deriving DecidableEq

/-- The column-update map of ModifyItem. -/
abbrev FieldMap := List (String × Val)

/-- Is the pair a known column with a value of its column's kind; anything
else surfaces as a store error when the UPDATE runs. -/
def validField (kv : String × Val) : Bool :=
  match kv.2 with
  | .s _ => decide (kv.1 = "parent_path" ∨ kv.1 = "name" ∨ kv.1 = "sha1")
  | .t _ => decide (kv.1 = "type")
  | .i _ => decide (kv.1 = "size" ∨ kv.1 = "state" ∨ kv.1 = "created_at"
                    ∨ kv.1 = "updated_at")
  | .b _ => decide (kv.1 = "info")

/-- One SET clause of the UPDATE built from the field map. -/
def applyField (kv : String × Val) (r : Item) : Item :=
  match kv.2 with
  | .s v =>
    if kv.1 = "parent_path" then { r with parentPath := v }
    else if kv.1 = "name" then { r with name := v }
    else if kv.1 = "sha1" then { r with sha1 := v }
    else r
  | .t v => if kv.1 = "type" then { r with type := v } else r
  | .i v =>
    if kv.1 = "size" then { r with size := v }
    else if kv.1 = "state" then { r with state := v }
    else if kv.1 = "created_at" then { r with createdAt := v }
    else if kv.1 = "updated_at" then { r with updatedAt := v }
    else r
  | .b v => if kv.1 = "info" then { r with info := v } else r

/-- All SET clauses of the UPDATE, applied left to right. -/
def applyFieldMap (m : FieldMap) (r : Item) : Item :=
  m.foldl (fun acc kv => applyField kv acc) r

/-- The Updates statement of ModifyItem keyed on (parent_path, name); an
invalid column errors with no change, and no gorm model is attached so no
timestamp column is touched implicitly. -/
def modifyByKey (d n : String) (m : FieldMap) (st : Store) :
    Option DbError × Store :=
  if m.all validField then
    (none, st.map (fun r => if keyMatch r d n then applyFieldMap m r else r))
  else
    (some DbError.invalidColumn, st)

/-- ModifyItem: split the path with filepath.Split, run the partial update. -/
def ModifyItem (p : String) (m : FieldMap) (st : Store) :
    Option DbError × Store :=
  modifyByKey (splitPath p).1 (splitPath p).2 m st

/-- The SET parent_path=?, name=? assignment of RenameItem, applied to the
rows matching the old key; updated_at is deliberately not assigned (it is
commented out in the source). -/
def moveKey (od onm nd nn : String) (r : Item) : Item :=
  if keyMatch r od onm then { r with parentPath := nd, name := nn } else r

/-- RenameItem's body keyed on the two split keys. The direct UPDATE fails
with the UNIQUE-constraint error exactly when a row matches the old key,
the new key differs, and another row already holds the new key; the code
then runs one transaction deleting the row at the new key and re-running
the update, modelled as a single step. -/
def renameByKey (od onm nd nn : String) (st : Store) : Option DbError × Store :=
  if st.any (fun r => keyMatch r od onm)
     && !(decide (nd = od ∧ nn = onm))
     && st.any (fun r => keyMatch r nd nn) then
    (none, (st.filter (fun r => !(keyMatch r nd nn))).map (moveKey od onm nd nn))
  else
    (none, st.map (moveKey od onm nd nn))

/-- RenameItem: split both paths with filepath.Split and run the
conflict-aware key update. -/
def RenameItem (oldName newName : String) (st : Store) :
    Option DbError × Store :=
  renameByKey (splitPath oldName).1 (splitPath oldName).2
    (splitPath newName).1 (splitPath newName).2 st

/-- The First query keyed on (d, n): the row, or gorm's record-not-found. -/
def getByKey (d n : String) (st : Store) : Except DbError Item :=
  match rowAt st d n with
  | none => Except.error DbError.notFound
  | some r => Except.ok r

/-- GetItem: split the path with filepath.Split and run the First query. -/
def GetItem (p : String) (st : Store) : Except DbError Item :=
  getByKey (splitPath p).1 (splitPath p).2 st

/-- The batches FindInBatches hands to the callback: consecutive chunks of
the table in rowid order, each of size n+1 (so n = 999 gives the source's
batch size 1000). -/
def chunkList (n : Nat) : List Item → List (List Item)
  | [] => []
  | x :: xs => (x :: List.take n xs) :: chunkList n (List.drop n xs)
termination_by l => l.length
decreasing_by
  simp only [List.length_cons, List.length_drop]
  omega

/-- A single unbounded Find over the table. -/
def findAll (st : Store) : List Item := st

/-- GetAllItem: FindInBatches with batch size 1000, the callback appending
each batch to the accumulated list. -/
def GetAllItem (st : Store) : Option DbError × List Item :=
  (none, (chunkList 999 st).foldl (fun acc batch => acc ++ batch) [])

/-- DeleteAllItem: the unconditioned DELETE over the table. -/
def DeleteAllItem (_st : Store) : Option DbError × Store :=
  (none, [])

/-- One condition contributed by a query-scope filter: the built WHERE
fragment "column op ?" with its bound value. -/
structure QueryCond where
  column : String
  op : String
  value : String
deriving DecidableEq

/-- Appending strings concatenates their character lists. -/
theorem string_data_append (a b : String) : (a ++ b).data = a.data ++ b.data :=
  rfl

/-- Rebuilding a string from its character list is the identity. -/
theorem string_mk_data (s : String) : String.mk s.data = s := by
  cases s
  rfl

/-- The two parts of splitP concatenate back to the input. -/
theorem splitP_concat (l : List Char) : (splitP l).1 ++ (splitP l).2 = l := by
  induction l with
  | nil => rfl
  | cons c cs ih =>
    by_cases h : (splitP cs).1.isEmpty = true
    · by_cases hc : c = separator
      · simp [splitP, h, hc]
      · simp [splitP, h, hc]
    · simp only [splitP, h, if_neg, Bool.not_eq_true] at *
      simp [h, List.cons_append, ih]

/-- When splitP finds no separator, the name part is the whole input and the
input holds no separator. -/
theorem splitP_fst_empty (l : List Char) (h : (splitP l).1 = []) :
    (splitP l).2 = l ∧ separator ∉ l := by
  induction l with
  | nil => exact ⟨rfl, by simp⟩
  | cons c cs ih =>
    by_cases he : (splitP cs).1.isEmpty = true
    · have hcs := ih (by simpa [List.isEmpty_iff] using he)
      by_cases hc : c = separator
      · simp [splitP, he, hc] at h
      · refine ⟨by simp [splitP, he, hc], ?_⟩
        intro hmem
        rcases List.mem_cons.mp hmem with h1 | h1
        · exact hc h1.symm
        · exact hcs.2 h1
    · simp [splitP, he] at h

/-- The name part returned by splitP holds no separator. -/
theorem splitP_snd_nosep (l : List Char) : separator ∉ (splitP l).2 := by
  induction l with
  | nil => simp [splitP]
  | cons c cs ih =>
    by_cases he : (splitP cs).1.isEmpty = true
    · have hcs := splitP_fst_empty cs (by simpa [List.isEmpty_iff] using he)
      by_cases hc : c = separator
      · simpa [splitP, he, hc] using hcs.2
      · simp only [splitP, he, if_pos, if_neg hc]
        intro hmem
        rcases List.mem_cons.mp hmem with h1 | h1
        · exact hc h1.symm
        · exact hcs.2 h1
    · simpa [splitP, he] using ih

/-- The directory part returned by splitP is empty or ends in the
separator. -/
theorem splitP_fst_form (l : List Char) :
    (splitP l).1 = [] ∨ ∃ t, (splitP l).1 = t ++ [separator] := by
  induction l with
  | nil => exact Or.inl rfl
  | cons c cs ih =>
    by_cases he : (splitP cs).1.isEmpty = true
    · by_cases hc : c = separator
      · exact Or.inr ⟨[], by simp [splitP, he, hc]⟩
      · exact Or.inl (by simp [splitP, he, hc])
    · rcases ih with h1 | ⟨t, ht⟩
      · exact absurd (by simp [h1]) he
      · exact Or.inr ⟨c :: t, by simp [splitP, he, ht]⟩

/-- A separator-free list splits into an empty directory and itself. -/
theorem splitP_nosep (l : List Char) (h : separator ∉ l) : splitP l = ([], l) := by
  induction l with
  | nil => rfl
  | cons c cs ih =>
    have hc : ¬ c = separator := fun hx => h (by simp [hx])
    have hcs := ih (fun hx => h (List.mem_cons_of_mem _ hx))
    simp [splitP, hcs, hc]

/-- Any decomposition into a separator-free name and a directory that is
empty or ends in the separator is the one splitP computes: the split is
determined by the last separator. -/
theorem splitP_unique (d n : List Char) (hn : separator ∉ n)
    (hd : d = [] ∨ ∃ t, d = t ++ [separator]) : splitP (d ++ n) = (d, n) := by
  induction d with
  | nil =>
    simpa using splitP_nosep n hn
  | cons c d' ih =>
    rcases hd with h1 | ⟨t, ht⟩
    · exact absurd h1 (by simp)
    · cases t with
      | nil =>
        have hc : c = separator := by simpa using congrArg (fun l => l.headD c) ht
        have hd' : d' = [] := by simpa using congrArg List.tail ht
        subst hd'
        have hsplit : splitP n = ([], n) := splitP_nosep n hn
        simp [splitP, List.cons_append, hsplit, hc]
      | cons c' t' =>
        have hd' : d' = t' ++ [separator] := by simpa using congrArg List.tail ht
        have hrec := ih (Or.inr ⟨t', hd'⟩)
        have hde : d'.isEmpty = false := by simp [hd']
        simp [splitP, hrec, hde]

/-- A row found by rowAt belongs to the store and matches the key. -/
theorem rowAt_mem {st : Store} {d n : String} {r : Item}
    (h : rowAt st d n = some r) : r ∈ st ∧ keyMatch r d n = true := by
  unfold rowAt at h
  refine ⟨List.mem_of_find?_eq_some h, ?_⟩
  have hp := List.find?_some h
  simpa using hp

/-- A row found by rowAt makes the existence test of the conflict branches
true. -/
theorem rowAt_any {st : Store} {d n : String} {r : Item}
    (h : rowAt st d n = some r) : st.any (fun x => keyMatch x d n) = true :=
  List.any_eq_true.mpr ⟨r, (rowAt_mem h).1, (rowAt_mem h).2⟩

/-- rowAt is none exactly when no row of the store matches the key. -/
theorem rowAt_eq_none {st : Store} {d n : String} :
    rowAt st d n = none ↔ ∀ r ∈ st, keyMatch r d n = false := by
  unfold rowAt
  rw [List.find?_eq_none]
  constructor
  · intro h r hr
    simpa using h r hr
  · intro h r hr
    simp [h r hr]

/-- Mapping a function that keeps parent_path and name fixed commutes with
the keyed lookup. -/
theorem rowAt_map_keyfix (g : Item → Item)
    (hg : ∀ r, (g r).parentPath = r.parentPath ∧ (g r).name = r.name)
    (st : Store) (d n : String) :
    rowAt (st.map g) d n = (rowAt st d n).map g := by
  induction st with
  | nil => rfl
  | cons a l ih =>
    have hkey : keyMatch (g a) d n = keyMatch a d n := by
      unfold keyMatch
      rw [(hg a).1, (hg a).2]
    by_cases h : keyMatch a d n = true
    · simp [rowAt, List.find?, hkey, h]
    · have h' : keyMatch a d n = false := by
        cases hb : keyMatch a d n
        · rfl
        · exact absurd hb h
      simpa [rowAt, List.find?, hkey, h'] using ih

/-- Under the unique index two rows of the store with the same key are the
same row. -/
theorem pairwise_key_eq {st : Store} (hu : UniqueKeys st) {a b : Item}
    (ha : a ∈ st) (hb : b ∈ st)
    (hk : a.parentPath = b.parentPath ∧ a.name = b.name) : a = b := by
  induction st with
  | nil => cases ha
  | cons h t ih =>
    rcases List.pairwise_cons.mp hu with ⟨h1, h2⟩
    rcases List.mem_cons.mp ha with ha1 | ha1 <;>
      rcases List.mem_cons.mp hb with hb1 | hb1
    · rw [ha1, hb1]
    · subst ha1
      exact absurd hk (h1 b hb1)
    · subst hb1
      exact absurd ⟨hk.1.symm, hk.2.symm⟩ (h1 a ha1)
    · exact ih h2 ha1 hb1

/-- If a matching row is in the store and every matching row equals it, the
keyed lookup returns it. -/
theorem rowAt_eq_some_of_unique {st : Store} {d n : String} {r : Item}
    (hmem : r ∈ st) (hk : keyMatch r d n = true)
    (huniq : ∀ x ∈ st, keyMatch x d n = true → x = r) :
    rowAt st d n = some r := by
  induction st with
  | nil => cases hmem
  | cons a l ih =>
    by_cases h : keyMatch a d n = true
    · have ha : a = r := huniq a (List.mem_cons_self a l) h
      subst ha
      simp [rowAt, List.find?, h]
    · have h' : keyMatch a d n = false := by
        cases hb : keyMatch a d n
        · rfl
        · exact absurd hb h
      have hmem' : r ∈ l := by
        rcases List.mem_cons.mp hmem with h1 | h1
        · rw [h1] at hk
          exact absurd hk h
        · exact h1
      simpa [rowAt, List.find?, h'] using
        ih hmem' (fun x hx hkx => huniq x (List.mem_cons_of_mem a hx) hkx)

/-- FilterName(name, operator): db.Where("name op ?", name). -/
def FilterName (name operatorStr : String) : List QueryCond :=
  [⟨"name", operatorStr, name⟩]

/-- FilterParentPath(path, operator): db.Where("name op ?", path) — the
format string names the name column, exactly as in the source. -/
def FilterParentPath (path operatorStr : String) : List QueryCond :=
  [⟨"name", operatorStr, path⟩]

/-- The character class [a-f0-9] of the IsPartialFile pattern. -/
def isHexLower (c : Char) : Bool :=
  decide (('a' ≤ c ∧ c ≤ 'f') ∨ ('0' ≤ c ∧ c ≤ '9'))

/-- The fixed tail of the pattern after the dot consumed by ".*": a dot,
exactly eight [a-f0-9] characters, then the literal ".partial". -/
def tailMatch (l : List Char) : Bool :=
  match l with
  | c :: rest =>
    decide (c = '.') && (List.take 8 rest).all isHexLower
      && decide (List.drop 8 rest = ".partial".data)
  | [] => false

/-- IsPartialFile of utils.gp.go: regexp.MatchString with the anchored
RE2 pattern dot-star, a dot, eight [a-f0-9] characters, ".partial".
The dot-star tries every split point and, per RE2 with no s flag, cannot
consume a newline. -/
def IsPartialFile (name : String) : Bool :=
  (List.range (name.data.length + 1)).any (fun i =>
    (List.take i name.data).all (fun c => decide (¬ c = '\n'))
      && tailMatch (List.drop i name.data))

/-- Fixture row used by the concrete witnesses and counterexamples. -/
def wRow : Item := ⟨"a/", "b", EntryType.directory, 7, 0, "h", 3, 5, []⟩

/-- Fixture store holding the single row wRow. -/
def wStore : Store := [wRow]

/-- Fixture second row at the key ("c/", "d"). -/
def wRow2 : Item := ⟨"c/", "d", EntryType.directory, 1, 0, "g", 2, 9, []⟩

/-- Fixture two-row store for the rename witnesses. -/
def wStore2 : Store := [wRow, wRow2]

/-- Fixture decoder that always fails, for the decode-failure witness. -/
def wDecodeNone : Blob → Option Info := fun _ => none

/-- Fixture payload carried by the blob [1] under wDecode. -/
def wInfo : Info := ⟨0, 0, 10, [], "f1", false⟩

/-- Fixture decoder mapping the blob [1] to wInfo. -/
def wDecode : Blob → Option Info := fun b => if b = [1] then some wInfo else none

/-- Fixture object entry whose key collides with wRow and whose blob [1]
decodes to wInfo. -/
def wObj : Item := ⟨"a/", "b", EntryType.object, 10, 0, "f1", 0, 0, [1]⟩

/-- Fixture directory entry whose key collides with wRow. -/
def wDir : Item := ⟨"a/", "b", EntryType.directory, 55, 2, "zz", 0, 0, []⟩

/-- Every batch handed to the callback concatenates back, in order, to the
whole table prefixed by the accumulator. -/
theorem chunkList_foldl_append (n : Nat) :
    ∀ (k : Nat) (l : List Item), l.length ≤ k →
      ∀ acc : List Item,
        (chunkList n l).foldl (fun a b => a ++ b) acc = acc ++ l := by
  intro k
  induction k with
  | zero =>
    intro l hl acc
    have hnil : l = [] := List.eq_nil_of_length_eq_zero (Nat.le_zero.mp hl)
    subst hnil
    simp [chunkList]
  | succ k ih =>
    intro l hl acc
    match l with
    | [] => simp [chunkList]
    | x :: xs =>
      have hlen : (List.drop n xs).length ≤ k := by
        simp only [List.length_drop]
        simp only [List.length_cons] at hl
        omega
      simp only [chunkList, List.foldl_cons]
      rw [ih (List.drop n xs) hlen]
      simp [List.append_assoc]

/-- C7 (confirmed): the sequence a successful GetAll returns, read
internally in batches of 1000, equals what a single unbounded read of every
row returns; the batching is not observable. -/
theorem getall_batching_invisible (st : Store) :
    GetAllItem st = (none, findAll st) := by
  unfold GetAllItem findAll
  rw [chunkList_foldl_append 999 st.length st le_rfl]
  simp

/-- C9 (confirmed): FilterParentPath(path, operator) builds the same single
condition as FilterName(path, operator) — it compares the name column to
path — and adds no condition on the parent_path column. -/
theorem filterParentPath_uses_name_column (path operatorStr : String) :
    FilterParentPath path operatorStr = FilterName path operatorStr
    ∧ (FilterParentPath path operatorStr).all
        (fun c => decide (c.column = "name" ∧ ¬ c.column = "parent_path"))
      = true :=
  ⟨rfl, rfl⟩

/-- C2 (confirmed): for an entry of type object, UpsertItem decodes the info
blob before any write; when decoding fails it returns the error and the
store is unchanged, with no write at all. -/
theorem upsert_decode_failure_no_write (decode : Blob → Option Info)
    (now : Int) (st : Store) (e : Item)
    (htype : e.type = EntryType.object) (hdec : decode e.info = none) :
    UpsertItem decode now st e = (some DbError.decodeFailed, st) := by
  unfold UpsertItem
  rw [if_pos htype, hdec]

/-- Witness for the decode-failure theorem at a concrete store and entry. -/
theorem upsert_decode_failure_no_write_witness :
    wObj.type = EntryType.object ∧ wDecodeNone wObj.info = none
    ∧ UpsertItem wDecodeNone 100 wStore wObj
        = (some DbError.decodeFailed, wStore) :=
  ⟨rfl, rfl, upsert_decode_failure_no_write wDecodeNone 100 wStore wObj rfl rfl⟩

/-- keyMatch spelled as a proposition on the two key columns. -/
theorem keyMatch_eq_true {r : Item} {d n : String} :
    keyMatch r d n = true ↔ (r.parentPath = d ∧ r.name = n) := by
  simp [keyMatch]

/-- keyMatch is false exactly when the key differs. -/
theorem keyMatch_eq_false {r : Item} {d n : String} :
    keyMatch r d n = false ↔ ¬(r.parentPath = d ∧ r.name = n) := by
  simp [keyMatch]

/-- The conflict branch of the upsert write leaves the keyed lookup at the
conflicting row, with the DoUpdates assignments applied. -/
theorem upsertWrite_conflict_rowAt (now : Int) (payload : Info) (st : Store)
    (e : Item) (r0 : Item) (hrow : rowAt st e.parentPath e.name = some r0) :
    rowAt (upsertWrite now st e payload) e.parentPath e.name
      = some (upsertApply now payload e r0) := by
  have hany := rowAt_any hrow
  unfold upsertWrite
  rw [if_pos hany]
  have hg : ∀ r : Item,
      ((if keyMatch r e.parentPath e.name
        then upsertApply now payload e r else r)).parentPath = r.parentPath
      ∧ ((if keyMatch r e.parentPath e.name
          then upsertApply now payload e r else r)).name = r.name := by
    intro r
    by_cases h : keyMatch r e.parentPath e.name = true <;>
      simp [h, upsertApply]
  rw [rowAt_map_keyfix _ hg st e.parentPath e.name, hrow]
  simp [(rowAt_mem hrow).2]

/-- The conflict branch of the upsert write leaves every other key's lookup
unchanged. -/
theorem upsertWrite_conflict_other (now : Int) (payload : Info) (st : Store)
    (e : Item) (r0 : Item) (hrow : rowAt st e.parentPath e.name = some r0)
    (d n : String) (hne : ¬(d = e.parentPath ∧ n = e.name)) :
    rowAt (upsertWrite now st e payload) d n = rowAt st d n := by
  have hany := rowAt_any hrow
  unfold upsertWrite
  rw [if_pos hany]
  have hg : ∀ r : Item,
      ((if keyMatch r e.parentPath e.name
        then upsertApply now payload e r else r)).parentPath = r.parentPath
      ∧ ((if keyMatch r e.parentPath e.name
          then upsertApply now payload e r else r)).name = r.name := by
    intro r
    by_cases h : keyMatch r e.parentPath e.name = true <;>
      simp [h, upsertApply]
  rw [rowAt_map_keyfix _ hg st d n]
  cases hfind : rowAt st d n with
  | none => rfl
  | some r =>
    have hk := (rowAt_mem hfind).2
    rcases keyMatch_eq_true.mp hk with ⟨hd, hn⟩
    have hno : keyMatch r e.parentPath e.name = false := by
      rw [keyMatch_eq_false]
      intro hx
      exact hne ⟨by rw [hd.symm, hx.1], by rw [hn.symm, hx.2]⟩
    simp [hno]

/-- UpsertItem reduces to the conflict-aware write once the payload is
fixed: the decoded blob for an object entry, the zero Info otherwise. -/
theorem upsertItem_reduce (decode : Blob → Option Info) (now : Int)
    (st : Store) (e : Item) (payload : Info)
    (hdec : (e.type = EntryType.object ∧ decode e.info = some payload)
          ∨ (¬ e.type = EntryType.object ∧ payload = Info.zero)) :
    UpsertItem decode now st e = (none, upsertWrite now st e payload) := by
  rcases hdec with ⟨ht, hd⟩ | ⟨ht, hz⟩
  · unfold UpsertItem
    rw [if_pos ht, hd]
  · subst hz
    unfold UpsertItem
    rw [if_neg ht]

/-- C3 (confirmed): on key conflict a successful UpsertItem updates only
updated_at, sha1, size and info of the conflicting row to the values the
upsert carries (the row's decoded payload fields and the raw blob); every
other column of that row — parent_path, name, type, state, created_at —
keeps its prior value, and the lookup at every other key is unchanged. -/
theorem upsert_conflict_frame (decode : Blob → Option Info) (now : Int)
    (st : Store) (e : Item) (payload : Info) (r0 : Item)
    (hrow : rowAt st e.parentPath e.name = some r0)
    (hdec : (e.type = EntryType.object ∧ decode e.info = some payload)
          ∨ (¬ e.type = EntryType.object ∧ payload = Info.zero)) :
    (UpsertItem decode now st e).1 = none
    ∧ rowAt (UpsertItem decode now st e).2 e.parentPath e.name
        = some { r0 with updatedAt := now, sha1 := payload.fingerprint,
                         size := payload.size, info := e.info }
    ∧ (∀ d n, ¬(d = e.parentPath ∧ n = e.name) →
        rowAt (UpsertItem decode now st e).2 d n = rowAt st d n) := by
  rw [upsertItem_reduce decode now st e payload hdec]
  refine ⟨rfl, ?_, ?_⟩
  · rw [upsertWrite_conflict_rowAt now payload st e r0 hrow]
    rfl
  · intro d n hne
    exact upsertWrite_conflict_other now payload st e r0 hrow d n hne

/-- Witness for the conflict frame theorem: upserting wObj over wStore
updates exactly the four columns of the row at ("a/", "b") and leaves the
lookup at ("c/", "d") unchanged. -/
theorem upsert_conflict_frame_witness :
    rowAt wStore wObj.parentPath wObj.name = some wRow
    ∧ (UpsertItem wDecode 100 wStore wObj).1 = none
    ∧ rowAt (UpsertItem wDecode 100 wStore wObj).2 wObj.parentPath wObj.name
        = some { wRow with updatedAt := 100, sha1 := wInfo.fingerprint,
                           size := wInfo.size, info := wObj.info }
    ∧ rowAt (UpsertItem wDecode 100 wStore wObj).2 "c/" "d"
        = rowAt wStore "c/" "d" := by
  have h := upsert_conflict_frame wDecode 100 wStore wObj wInfo wRow
    (by decide) (Or.inl ⟨by decide, by decide⟩)
  exact ⟨by decide, h.1, h.2.1, h.2.2 "c/" "d" (by decide)⟩

/-- C8 (confirmed): the conflict branch of UpsertItem takes the sha1 and
size it writes from the decoded Info payload, not from the entry's own Sha1
and Size fields; for an entry that is not an object the payload stays the
Go zero value, so the conflicting row's size becomes 0 and its sha1 the
empty string whatever the entry's fields hold. -/
theorem upsert_conflict_payload_source (decode : Blob → Option Info)
    (now : Int) (st : Store) (e : Item) (r0 : Item)
    (hrow : rowAt st e.parentPath e.name = some r0) :
    (∀ payload, e.type = EntryType.object → decode e.info = some payload →
       (UpsertItem decode now st e).1 = none
       ∧ rowAt (UpsertItem decode now st e).2 e.parentPath e.name
           = some { r0 with updatedAt := now, sha1 := payload.fingerprint,
                            size := payload.size, info := e.info })
    ∧ (¬ e.type = EntryType.object →
       (UpsertItem decode now st e).1 = none
       ∧ rowAt (UpsertItem decode now st e).2 e.parentPath e.name
           = some { r0 with updatedAt := now, sha1 := "", size := 0,
                            info := e.info }) := by
  constructor
  · intro payload ht hd
    rw [upsertItem_reduce decode now st e payload (Or.inl ⟨ht, hd⟩)]
    refine ⟨rfl, ?_⟩
    rw [upsertWrite_conflict_rowAt now payload st e r0 hrow]
    rfl
  · intro ht
    rw [upsertItem_reduce decode now st e Info.zero (Or.inr ⟨ht, rfl⟩)]
    refine ⟨rfl, ?_⟩
    rw [upsertWrite_conflict_rowAt now Info.zero st e r0 hrow]
    rfl

/-- Witness for the payload-source theorem: the conflicting upsert of the
directory entry wDir, whose Size is 55 and Sha1 is "zz", leaves the row
with size 0 and sha1 "". -/
theorem upsert_conflict_payload_source_witness :
    rowAt wStore wDir.parentPath wDir.name = some wRow
    ∧ ¬ wDir.type = EntryType.object
    ∧ (UpsertItem wDecode 100 wStore wDir).1 = none
    ∧ rowAt (UpsertItem wDecode 100 wStore wDir).2 wDir.parentPath wDir.name
        = some { wRow with updatedAt := 100, sha1 := "", size := 0,
                           info := wDir.info } := by
  have h := (upsert_conflict_payload_source wDecode 100 wStore wDir wRow
    (by decide)).2 (by decide)
  exact ⟨by decide, by decide, h.1, h.2⟩

/-- Looking up a key absent from the first part of a concatenation falls
through to the second part. -/
theorem rowAt_append_of_none {st : Store} {d n : String}
    (h : rowAt st d n = none) (l2 : Store) :
    rowAt (st ++ l2) d n = rowAt l2 d n := by
  unfold rowAt at *
  rw [List.find?_append, h]
  rfl

/-- A store with no row at the key makes the conflict test false. -/
theorem any_eq_false_of_rowAt_none {st : Store} {d n : String}
    (h : rowAt st d n = none) :
    st.any (fun r => keyMatch r d n) = false := by
  rw [List.any_eq_false]
  intro x hx
  simp [rowAt_eq_none.mp h x hx]

/-- C5 (confirmed): for a valid entry — an object whose blob decodes to a
payload agreeing with its Size and Sha1 fields, or a non-object with zero
size and empty sha1 — a successful UpsertItem followed by GetItem on the
path formed from (parent_path, name) returns a row whose size, sha1 and
info equal the values the upsert carried. -/
theorem upsert_get_roundtrip (decode : Blob → Option Info) (now : Int)
    (st : Store) (e : Item)
    (hsplit : splitPath (e.parentPath ++ e.name) = (e.parentPath, e.name))
    (hvalid : (e.type = EntryType.object
                ∧ ∃ payload, decode e.info = some payload
                    ∧ payload.size = e.size ∧ payload.fingerprint = e.sha1)
            ∨ (¬ e.type = EntryType.object ∧ e.size = 0 ∧ e.sha1 = "")) :
    (UpsertItem decode now st e).1 = none
    ∧ ∃ r : Item,
        GetItem (e.parentPath ++ e.name) (UpsertItem decode now st e).2
          = Except.ok r
        ∧ r.size = e.size ∧ r.sha1 = e.sha1 ∧ r.info = e.info := by
  have hpay : ∃ payload : Info,
      UpsertItem decode now st e = (none, upsertWrite now st e payload)
      ∧ payload.size = e.size ∧ payload.fingerprint = e.sha1 := by
    rcases hvalid with ⟨ht, payload, hd, hsz, hfp⟩ | ⟨ht, hsz, hfp⟩
    · exact ⟨payload, upsertItem_reduce decode now st e payload
        (Or.inl ⟨ht, hd⟩), hsz, hfp⟩
    · exact ⟨Info.zero, upsertItem_reduce decode now st e Info.zero
        (Or.inr ⟨ht, rfl⟩), by simp [Info.zero, hsz], by simp [Info.zero, hfp]⟩
  rcases hpay with ⟨payload, hred, hsz, hfp⟩
  rw [hred]
  refine ⟨rfl, ?_⟩
  have hget : ∀ st2 : Store, GetItem (e.parentPath ++ e.name) st2
      = getByKey e.parentPath e.name st2 := by
    intro st2
    unfold GetItem
    rw [hsplit]
  cases hfind : rowAt st e.parentPath e.name with
  | some r0 =>
    refine ⟨upsertApply now payload e r0, ?_, hsz, hfp, rfl⟩
    rw [hget]
    unfold getByKey
    rw [upsertWrite_conflict_rowAt now payload st e r0 hfind]
  | none =>
    have hany := any_eq_false_of_rowAt_none hfind
    have hw : upsertWrite now st e payload
        = st ++ [{ e with createdAt := if e.createdAt = 0 then now else e.createdAt
                        , updatedAt := if e.updatedAt = 0 then now else e.updatedAt }] := by
      unfold upsertWrite
      rw [hany]
      rfl
    refine ⟨{ e with createdAt := if e.createdAt = 0 then now else e.createdAt
                   , updatedAt := if e.updatedAt = 0 then now else e.updatedAt },
            ?_, rfl, rfl, rfl⟩
    rw [hget]
    unfold getByKey
    rw [hw, rowAt_append_of_none hfind]
    simp [rowAt, List.find?, keyMatch]

/-- Witness for the roundtrip theorem: upserting wObj into wStore and
reading back the path "a/b". -/
theorem upsert_get_roundtrip_witness :
    splitPath (wObj.parentPath ++ wObj.name) = (wObj.parentPath, wObj.name)
    ∧ ((UpsertItem wDecode 100 wStore wObj).1 = none
       ∧ ∃ r : Item,
           GetItem (wObj.parentPath ++ wObj.name)
               (UpsertItem wDecode 100 wStore wObj).2 = Except.ok r
           ∧ r.size = wObj.size ∧ r.sha1 = wObj.sha1 ∧ r.info = wObj.info) :=
  ⟨by decide, upsert_get_roundtrip wDecode 100 wStore wObj (by decide)
    (Or.inl ⟨by decide, wInfo, by decide, by decide, by decide⟩)⟩

/-- C6 (confirmed): every path-taking operation — Get, Delete, Modify and
Rename (on both of its arguments) — forms its lookup key with the same
split, filepath.Split: the parent_path is everything up to and including
the last separator (so it is empty or ends in the separator), the name is
the separator-free remainder, and this decomposition is unique. -/
theorem path_split_policy (p oldName newName : String) (st : Store)
    (m : FieldMap) (d n : String)
    (h1 : d ++ n = p)
    (h2 : separator ∉ n.data)
    (h3 : d = "" ∨ ∃ t, d.data = t ++ [separator]) :
    splitPath p = (d, n)
    ∧ ((splitPath p).1.data ++ (splitPath p).2.data = p.data
       ∧ separator ∉ (splitPath p).2.data
       ∧ ((splitPath p).1 = "" ∨ ∃ t, (splitPath p).1.data = t ++ [separator]))
    ∧ GetItem p st = getByKey (splitPath p).1 (splitPath p).2 st
    ∧ DeleteItem p st = deleteByKey (splitPath p).1 (splitPath p).2 st
    ∧ ModifyItem p m st = modifyByKey (splitPath p).1 (splitPath p).2 m st
    ∧ RenameItem oldName newName st
        = renameByKey (splitPath oldName).1 (splitPath oldName).2
            (splitPath newName).1 (splitPath newName).2 st := by
  have hd : d.data = [] ∨ ∃ t, d.data = t ++ [separator] := by
    rcases h3 with h | h
    · exact Or.inl (by rw [h])
    · exact Or.inr h
  have hsplit : splitP p.data = (d.data, n.data) := by
    rw [h1.symm, string_data_append]
    exact splitP_unique d.data n.data h2 hd
  refine ⟨?_, ⟨?_, ?_, ?_⟩, rfl, rfl, rfl, rfl⟩
  · unfold splitPath
    rw [hsplit]
  · exact splitP_concat p.data
  · exact splitP_snd_nosep p.data
  · rcases splitP_fst_form p.data with h | ⟨t, ht⟩
    · left
      show String.mk (splitP p.data).1 = ""
      rw [h]
    · exact Or.inr ⟨t, ht⟩

/-- Witness for the split-policy theorem at the path "a/b" and the rename
pair ("a/b", "c/d") over wStore. -/
theorem path_split_policy_witness :
    ("a/" ++ "b" = "a/b" ∧ separator ∉ "b".data
      ∧ ("a/" = "" ∨ ∃ t, "a/".data = t ++ [separator]))
    ∧ (splitPath "a/b" = ("a/", "b")
       ∧ ((splitPath "a/b").1.data ++ (splitPath "a/b").2.data = "a/b".data
          ∧ separator ∉ (splitPath "a/b").2.data
          ∧ ((splitPath "a/b").1 = ""
             ∨ ∃ t, (splitPath "a/b").1.data = t ++ [separator]))
       ∧ GetItem "a/b" wStore
           = getByKey (splitPath "a/b").1 (splitPath "a/b").2 wStore
       ∧ DeleteItem "a/b" wStore
           = deleteByKey (splitPath "a/b").1 (splitPath "a/b").2 wStore
       ∧ ModifyItem "a/b" [] wStore
           = modifyByKey (splitPath "a/b").1 (splitPath "a/b").2 [] wStore
       ∧ RenameItem "a/b" "c/d" wStore
           = renameByKey (splitPath "a/b").1 (splitPath "a/b").2
               (splitPath "c/d").1 (splitPath "c/d").2 wStore) :=
  ⟨⟨by decide, by decide, Or.inr ⟨['a'], by decide⟩⟩,
   path_split_policy "a/b" "a/b" "c/d" wStore [] "a/" "b"
     (by decide) (by decide) (Or.inr ⟨['a'], by decide⟩)⟩

/-- Moving a matched row rewrites its key columns and nothing else. -/
theorem moveKey_pos {od onm nd nn : String} {r : Item}
    (h : keyMatch r od onm = true) :
    moveKey od onm nd nn r = { r with parentPath := nd, name := nn } := by
  simp [moveKey, h]

/-- An unmatched row is untouched by the key update. -/
theorem moveKey_neg {od onm nd nn : String} {r : Item}
    (h : keyMatch r od onm = false) :
    moveKey od onm nd nn r = r := by
  simp [moveKey, h]

/-- After a rename whose destination key differs from the source key, no
row is left at the source key (the moved rows now carry the new key and
the untouched rows never matched). -/
theorem rename_no_old (od onm nd nn : String) (st : Store)
    (hne : ¬(nd = od ∧ nn = onm)) :
    rowAt (renameByKey od onm nd nn st).2 od onm = none := by
  have hmap : ∀ (base : Store),
      rowAt (base.map (moveKey od onm nd nn)) od onm = none := by
    intro base
    rw [rowAt_eq_none]
    intro r' hr'
    rcases List.mem_map.mp hr' with ⟨r, hmem, hmv⟩
    by_cases h : keyMatch r od onm = true
    · rw [hmv.symm, moveKey_pos h, keyMatch_eq_false]
      exact hne
    · have h' : keyMatch r od onm = false := by
        cases hb : keyMatch r od onm
        · rfl
        · exact absurd hb h
      rw [hmv.symm, moveKey_neg h']
      exact h'
  unfold renameByKey
  by_cases hc : (st.any (fun r => keyMatch r od onm)
      && !(decide (nd = od ∧ nn = onm))
      && st.any (fun r => keyMatch r nd nn)) = true
  · rw [if_pos hc]
    exact hmap _
  · rw [if_neg hc]
    exact hmap _

/-- After any rename the lookup at the destination key returns the source
row with its key columns rewritten (provided the store obeys the unique
index and holds the source row). -/
theorem rename_rowAt_new (od onm nd nn : String) (st : Store)
    (hu : UniqueKeys st) (rOld : Item)
    (hold : rowAt st od onm = some rOld) :
    rowAt (renameByKey od onm nd nn st).2 nd nn
      = some { rOld with parentPath := nd, name := nn } := by
  obtain ⟨hmemOld, hkOld⟩ := rowAt_mem hold
  rcases keyMatch_eq_true.mp hkOld with ⟨hppOld, hnmOld⟩
  have hktarget : keyMatch { rOld with parentPath := nd, name := nn } nd nn
      = true := by
    simp [keyMatch]
  have huniq_old : ∀ r, r ∈ st → keyMatch r od onm = true → r = rOld := by
    intro r hr hk
    rcases keyMatch_eq_true.mp hk with ⟨h1, h2⟩
    exact pairwise_key_eq hu hr hmemOld
      ⟨by rw [h1, hppOld.symm], by rw [h2, hnmOld.symm]⟩
  unfold renameByKey
  by_cases hc : (st.any (fun r => keyMatch r od onm)
      && !(decide (nd = od ∧ nn = onm))
      && st.any (fun r => keyMatch r nd nn)) = true
  · rw [if_pos hc]
    have hc' := hc
    simp only [Bool.and_eq_true] at hc'
    obtain ⟨⟨hc1, hc2⟩, hc3⟩ := hc'
    have hne : ¬(nd = od ∧ nn = onm) := by
      intro hx
      simp [hx] at hc2
    have hOldKeep : keyMatch rOld nd nn = false := by
      rw [keyMatch_eq_false]
      intro hx
      exact hne ⟨by rw [hppOld.symm, hx.1], by rw [hnmOld.symm, hx.2]⟩
    have hmem1 : rOld ∈ st.filter (fun r => !(keyMatch r nd nn)) :=
      List.mem_filter.mpr ⟨hmemOld, by simp [hOldKeep]⟩
    apply rowAt_eq_some_of_unique
    · exact List.mem_map.mpr ⟨rOld, hmem1, moveKey_pos hkOld⟩
    · exact hktarget
    · intro x hx hkx
      rcases List.mem_map.mp hx with ⟨r, hrmem, hmv⟩
      have hrst : r ∈ st := (List.mem_filter.mp hrmem).1
      have hrkeep : keyMatch r nd nn = false := by
        have := (List.mem_filter.mp hrmem).2
        simpa using this
      by_cases h : keyMatch r od onm = true
      · rw [hmv.symm, moveKey_pos h, huniq_old r hrst h]
      · have h' : keyMatch r od onm = false := by
          cases hb : keyMatch r od onm
          · rfl
          · exact absurd hb h
        rw [hmv.symm, moveKey_neg h'] at hkx
        rw [hkx] at hrkeep
        cases hrkeep
  · rw [if_neg hc]
    have hc1 : st.any (fun r => keyMatch r od onm) = true := rowAt_any hold
    by_cases hEq : nd = od ∧ nn = onm
    · have htarget_eq : { rOld with parentPath := nd, name := nn } = rOld := by
        rw [show nd = rOld.parentPath from by rw [hEq.1, hppOld]]
        rw [show nn = rOld.name from by rw [hEq.2, hnmOld]]
      have hmove_id : ∀ r ∈ st, moveKey od onm nd nn r = r := by
        intro r hr
        by_cases h : keyMatch r od onm = true
        · rw [moveKey_pos h]
          rcases keyMatch_eq_true.mp h with ⟨h1, h2⟩
          rw [show nd = r.parentPath from by rw [hEq.1, h1]]
          rw [show nn = r.name from by rw [hEq.2, h2]]
        · exact moveKey_neg (by
            cases hb : keyMatch r od onm
            · rfl
            · exact absurd hb h)
      have hmapid : st.map (moveKey od onm nd nn) = st := by
        rw [List.map_congr_left hmove_id]
        simp
      show rowAt (st.map (moveKey od onm nd nn)) nd nn = _
      rw [hmapid, htarget_eq, show nd = od from hEq.1, show nn = onm from hEq.2]
      exact hold
    · have h3 : st.any (fun r => keyMatch r nd nn) = false := by
        cases hb : st.any (fun r => keyMatch r nd nn)
        · rfl
        · exact absurd (by simp [hc1, hEq, hb]) hc
      have hnone : ∀ r ∈ st, keyMatch r nd nn = false := by
        intro r hr
        cases hb : keyMatch r nd nn
        · rfl
        · exact absurd (List.any_eq_true.mpr ⟨r, hr, hb⟩) (by rw [h3]; simp)
      apply rowAt_eq_some_of_unique
      · exact List.mem_map.mpr ⟨rOld, hmemOld, moveKey_pos hkOld⟩
      · exact hktarget
      · intro x hx hkx
        rcases List.mem_map.mp hx with ⟨r, hrmem, hmv⟩
        by_cases h : keyMatch r od onm = true
        · rw [hmv.symm, moveKey_pos h, huniq_old r hrmem h]
        · have h' : keyMatch r od onm = false := by
            cases hb : keyMatch r od onm
            · rfl
            · exact absurd hb h
          rw [hmv.symm, moveKey_neg h'] at hkx
          rw [hnone r hrmem] at hkx
          cases hkx

/-- In a store obeying the unique index, filtering by a predicate that
implies one fixed key and holds at a present row returns exactly that one
row. -/
theorem filter_unique_pred (d n : String) (q : Item → Bool) (r : Item)
    (hqr : q r = true)
    (himp : ∀ x, q x = true → keyMatch x d n = true) :
    ∀ st : Store, UniqueKeys st → r ∈ st → st.filter q = [r] := by
  intro st
  induction st with
  | nil =>
    intro _ hmem
    cases hmem
  | cons a t ih =>
    intro hu hmem
    rcases List.pairwise_cons.mp hu with ⟨h1, h2⟩
    by_cases hqa : q a = true
    · have hka := himp a hqa
      have hra : r = a := by
        rcases List.mem_cons.mp hmem with h | h
        · exact h
        · exfalso
          rcases keyMatch_eq_true.mp hka with ⟨ha1, ha2⟩
          rcases keyMatch_eq_true.mp (himp r hqr) with ⟨hr1, hr2⟩
          exact h1 r h ⟨by rw [ha1, hr1.symm], by rw [ha2, hr2.symm]⟩
      have ht : t.filter q = [] := by
        rw [List.filter_eq_nil_iff]
        intro x hx hqx
        rcases keyMatch_eq_true.mp hka with ⟨ha1, ha2⟩
        rcases keyMatch_eq_true.mp (himp x hqx) with ⟨hx1, hx2⟩
        exact h1 x hx ⟨by rw [ha1, hx1.symm], by rw [ha2, hx2.symm]⟩
      rw [List.filter_cons_of_pos hqa, ht, hra]
    · have hrt : r ∈ t := by
        rcases List.mem_cons.mp hmem with h | h
        · rw [h] at hqr
          exact absurd hqr hqa
        · exact h
      have hqa' : q a = false := by
        cases hb : q a
        · rfl
        · exact absurd hb hqa
      rw [List.filter_cons, hqa']
      exact ih h2 hrt

/-- The conflict fallback of a rename leaves exactly one row at the
destination key: the source row with its key columns rewritten. -/
theorem rename_conflict_exactly_one (od onm nd nn : String) (st : Store)
    (hu : UniqueKeys st) (rOld rNew : Item)
    (hold : rowAt st od onm = some rOld) (hnew : rowAt st nd nn = some rNew)
    (hne : ¬(nd = od ∧ nn = onm)) :
    (renameByKey od onm nd nn st).2.filter (fun r => keyMatch r nd nn)
      = [{ rOld with parentPath := nd, name := nn }] := by
  obtain ⟨hmemOld, hkOld⟩ := rowAt_mem hold
  rcases keyMatch_eq_true.mp hkOld with ⟨hppOld, hnmOld⟩
  have hOldKeep : keyMatch rOld nd nn = false := by
    rw [keyMatch_eq_false]
    intro hx
    exact hne ⟨by rw [hppOld.symm, hx.1], by rw [hnmOld.symm, hx.2]⟩
  have hc : (st.any (fun r => keyMatch r od onm)
      && !(decide (nd = od ∧ nn = onm))
      && st.any (fun r => keyMatch r nd nn)) = true := by
    simp [rowAt_any hold, rowAt_any hnew, hne]
  unfold renameByKey
  rw [if_pos hc]
  show ((st.filter (fun r => !(keyMatch r nd nn))).map
      (moveKey od onm nd nn)).filter (fun r => keyMatch r nd nn) = _
  rw [List.filter_map]
  have hcong : (st.filter (fun r => !(keyMatch r nd nn))).filter
        ((fun r => keyMatch r nd nn) ∘ moveKey od onm nd nn)
      = (st.filter (fun r => !(keyMatch r nd nn))).filter
          (fun r => keyMatch r od onm) := by
    apply List.filter_congr
    intro x hx
    have hxkeep : keyMatch x nd nn = false := by
      have := (List.mem_filter.mp hx).2
      simpa using this
    by_cases h : keyMatch x od onm = true
    · simp only [Function.comp]
      rw [moveKey_pos h, h]
      simp [keyMatch]
    · have h' : keyMatch x od onm = false := by
        cases hb : keyMatch x od onm
        · rfl
        · exact absurd hb h
      simp [Function.comp, moveKey_neg h', hxkeep, h']
  rw [hcong, List.filter_filter]
  have hone : st.filter
      (fun a => keyMatch a od onm && !(keyMatch a nd nn)) = [rOld] := by
    apply filter_unique_pred od onm _ rOld
    · simp [hkOld, hOldKeep]
    · intro x hx
      have hx' := hx
      simp only [Bool.and_eq_true] at hx'
      exact hx'.1
    · exact hu
    · exact hmemOld
  rw [hone]
  simp [moveKey_pos hkOld]

/-- Counterexample to C1 as stated: when oldPath and newPath are the same
path "a/b", a row exists at newPath and a row exists at oldPath, yet
RenameItem succeeds through the direct update (no unique violation fires,
so the conflict fallback is not executed), the store is unchanged, and
Get(oldPath) still returns the row rather than NotFound. -/
theorem rename_same_path_counterexample :
    rowAt wStore (splitPath "a/b").1 (splitPath "a/b").2 = some wRow
    ∧ RenameItem "a/b" "a/b" wStore = (none, wStore)
    ∧ GetItem "a/b" (RenameItem "a/b" "a/b" wStore).2 = Except.ok wRow
    ∧ ¬ GetItem "a/b" (RenameItem "a/b" "a/b" wStore).2
        = Except.error DbError.notFound := by
  refine ⟨by decide, by decide, by decide, ?_⟩
  intro h
  cases h.symm.trans (by decide : GetItem "a/b"
    (RenameItem "a/b" "a/b" wStore).2 = Except.ok wRow)

/-- C1 amended (corrected): the claim holds whenever the two paths split to
different keys. For every store obeying the unique index in which a row
exists at newPath and a row exists at oldPath, and the two split keys
differ, Rename succeeds via the conflict fallback (one delete-then-update
step in the model): afterwards exactly one row holds the newPath key —
oldPath's former row with its key columns rewritten — and Get(oldPath)
returns NotFound. When the two paths split to the same key the unique
violation never fires, the direct update succeeds in place and
Get(oldPath) still finds the row. -/
theorem rename_conflict_fallback_amended (oldName newName : String)
    (st : Store) (od onm nd nn : String) (rOld rNew : Item)
    (hso : splitPath oldName = (od, onm))
    (hsn : splitPath newName = (nd, nn))
    (hu : UniqueKeys st)
    (hold : rowAt st od onm = some rOld)
    (hnew : rowAt st nd nn = some rNew)
    (hne : ¬(nd = od ∧ nn = onm)) :
    (RenameItem oldName newName st).1 = none
    ∧ (RenameItem oldName newName st).2.filter (fun r => keyMatch r nd nn)
        = [{ rOld with parentPath := nd, name := nn }]
    ∧ GetItem oldName (RenameItem oldName newName st).2
        = Except.error DbError.notFound := by
  have hrn : RenameItem oldName newName st = renameByKey od onm nd nn st := by
    unfold RenameItem
    rw [hso, hsn]
  have hget : GetItem oldName (renameByKey od onm nd nn st).2
      = getByKey od onm (renameByKey od onm nd nn st).2 := by
    unfold GetItem
    rw [hso]
  refine ⟨?_, ?_, ?_⟩
  · rw [hrn]
    unfold renameByKey
    by_cases hc : (st.any (fun r => keyMatch r od onm)
        && !(decide (nd = od ∧ nn = onm))
        && st.any (fun r => keyMatch r nd nn)) = true
    · rw [if_pos hc]
    · rw [if_neg hc]
  · rw [hrn]
    exact rename_conflict_exactly_one od onm nd nn st hu rOld rNew hold hnew hne
  · rw [hrn, hget]
    unfold getByKey
    rw [rename_no_old od onm nd nn st hne]

/-- Witness for the amended rename theorem: renaming "a/b" onto the
occupied "c/d" over a two-row store. -/
theorem rename_conflict_fallback_amended_witness :
    (splitPath "a/b" = ("a/", "b") ∧ splitPath "c/d" = ("c/", "d")
     ∧ UniqueKeys wStore2 ∧ rowAt wStore2 "a/" "b" = some wRow
     ∧ rowAt wStore2 "c/" "d" = some wRow2
     ∧ ¬("c/" = "a/" ∧ "d" = "b"))
    ∧ ((RenameItem "a/b" "c/d" wStore2).1 = none
       ∧ (RenameItem "a/b" "c/d" wStore2).2.filter
           (fun r => keyMatch r "c/" "d")
           = [{ wRow with parentPath := "c/", name := "d" }]
       ∧ GetItem "a/b" (RenameItem "a/b" "c/d" wStore2).2
           = Except.error DbError.notFound) :=
  ⟨⟨by decide, by decide, by decide, by decide, by decide, by decide⟩,
   rename_conflict_fallback_amended "a/b" "c/d" wStore2 "a/" "b" "c/" "d"
     wRow wRow2
     (by decide) (by decide) (by decide) (by decide) (by decide) (by decide)⟩

/-- A single SET clause that names neither created_at nor updated_at
leaves both timestamp columns unchanged. -/
theorem applyField_preserves_times (kv : String × Val) (r : Item)
    (hc : ¬ kv.1 = "created_at") (hu2 : ¬ kv.1 = "updated_at") :
    (applyField kv r).createdAt = r.createdAt
    ∧ (applyField kv r).updatedAt = r.updatedAt := by
  rcases kv with ⟨c, v⟩
  cases v <;> simp only [applyField] <;> split_ifs <;> simp_all

/-- A field map that names neither created_at nor updated_at leaves both
timestamp columns unchanged. -/
theorem applyFieldMap_preserves_times :
    ∀ m : FieldMap,
      m.all (fun kv => decide (¬ kv.1 = "created_at"
        ∧ ¬ kv.1 = "updated_at")) = true →
      ∀ r : Item, (applyFieldMap m r).createdAt = r.createdAt
        ∧ (applyFieldMap m r).updatedAt = r.updatedAt := by
  intro m
  induction m with
  | nil =>
    intro _ r
    exact ⟨rfl, rfl⟩
  | cons kv t ih =>
    intro hm r
    have hm' := hm
    simp only [List.all_cons, Bool.and_eq_true] at hm'
    obtain ⟨hkv, ht⟩ := hm'
    have hkv' : ¬ kv.1 = "created_at" ∧ ¬ kv.1 = "updated_at" := by
      simpa using hkv
    have happ := applyField_preserves_times kv r hkv'.1 hkv'.2
    have hfold : applyFieldMap (kv :: t) r = applyFieldMap t (applyField kv r) :=
      rfl
    rw [hfold]
    have hrec := ih ht (applyField kv r)
    exact ⟨hrec.1.trans happ.1, hrec.2.trans happ.2⟩

/-- Counterexample to C4 as stated: the successful non-conflict rename of
"a/b" to "c/d" moves wRow but leaves its updated_at at its prior value 5
(the assignment is commented out in the source), so updated_at is not
strictly greater after this successful mutation. -/
theorem rename_keeps_updated_at_counterexample :
    (RenameItem "a/b" "c/d" wStore).1 = none
    ∧ (RenameItem "a/b" "c/d" wStore).2
        = [{ wRow with parentPath := "c/", name := "d" }]
    ∧ (RenameItem "a/b" "c/d" wStore).2.map Item.updatedAt = [wRow.updatedAt]
    ∧ ¬ wRow.updatedAt < wRow.updatedAt :=
  ⟨by decide, by decide, by decide, by decide⟩

/-- C4 amended (corrected): created_at is indeed never changed by Upsert's
conflict branch, by Rename, or by Modify when the field map does not name
created_at; but updated_at does not strictly increase with every successful
mutation: Upsert's conflict branch sets it to the current wall-clock value,
while Rename (both paths) and Modify (when the map does not name
updated_at) leave updated_at exactly as it was. -/
theorem mutation_timestamps_amended
    (decode : Blob → Option Info) (now : Int) (st : Store)
    (e : Item) (payload : Info) (r0 : Item)
    (oldName newName p : String) (od onm nd nn : String) (rOld : Item)
    (m : FieldMap)
    (hu : UniqueKeys st)
    (hrow : rowAt st e.parentPath e.name = some r0)
    (hdec : (e.type = EntryType.object ∧ decode e.info = some payload)
          ∨ (¬ e.type = EntryType.object ∧ payload = Info.zero))
    (hso : splitPath oldName = (od, onm))
    (hsn : splitPath newName = (nd, nn))
    (hold : rowAt st od onm = some rOld)
    (hm : m.all (fun kv => decide (¬ kv.1 = "created_at"
            ∧ ¬ kv.1 = "updated_at")) = true) :
    ((rowAt (UpsertItem decode now st e).2 e.parentPath e.name).map
        Item.createdAt = some r0.createdAt
     ∧ (rowAt (UpsertItem decode now st e).2 e.parentPath e.name).map
        Item.updatedAt = some now)
    ∧ ((rowAt (RenameItem oldName newName st).2 nd nn).map Item.createdAt
         = some rOld.createdAt
       ∧ (rowAt (RenameItem oldName newName st).2 nd nn).map Item.updatedAt
         = some rOld.updatedAt)
    ∧ (ModifyItem p m st).2.map (fun r => (r.createdAt, r.updatedAt))
        = st.map (fun r => (r.createdAt, r.updatedAt)) := by
  refine ⟨?_, ?_, ?_⟩
  · rw [upsertItem_reduce decode now st e payload hdec]
    show (rowAt (upsertWrite now st e payload) e.parentPath e.name).map
        Item.createdAt = some r0.createdAt
      ∧ (rowAt (upsertWrite now st e payload) e.parentPath e.name).map
        Item.updatedAt = some now
    rw [upsertWrite_conflict_rowAt now payload st e r0 hrow]
    exact ⟨rfl, rfl⟩
  · have hrn : RenameItem oldName newName st = renameByKey od onm nd nn st := by
      unfold RenameItem
      rw [hso, hsn]
    rw [hrn, rename_rowAt_new od onm nd nn st hu rOld hold]
    exact ⟨rfl, rfl⟩
  · show (modifyByKey (splitPath p).1 (splitPath p).2 m st).2.map
        (fun r => (r.createdAt, r.updatedAt))
      = st.map (fun r => (r.createdAt, r.updatedAt))
    unfold modifyByKey
    by_cases hv : m.all validField = true
    · rw [if_pos hv]
      show (st.map _).map _ = _
      rw [List.map_map]
      apply List.map_congr_left
      intro r hr
      show (fun r => (r.createdAt, r.updatedAt))
          (if keyMatch r (splitPath p).1 (splitPath p).2
           then applyFieldMap m r else r) = (r.createdAt, r.updatedAt)
      by_cases h : keyMatch r (splitPath p).1 (splitPath p).2 = true
      · rw [if_pos h]
        have := applyFieldMap_preserves_times m hm r
        simp [this.1, this.2]
      · rw [if_neg h]
    · rw [if_neg hv]

/-- Witness for the amended timestamp theorem: a conflicting upsert of
wObj, a rename of "a/b" to the free path "e/f", and a Modify of the size
column, all over the two-row store. -/
theorem mutation_timestamps_amended_witness :
    (UniqueKeys wStore2
     ∧ rowAt wStore2 wObj.parentPath wObj.name = some wRow
     ∧ wDecode wObj.info = some wInfo
     ∧ splitPath "a/b" = ("a/", "b") ∧ splitPath "e/f" = ("e/", "f")
     ∧ ([(("size" : String), Val.i 42)]).all
         (fun kv => decide (¬ kv.1 = "created_at"
           ∧ ¬ kv.1 = "updated_at")) = true)
    ∧ (((rowAt (UpsertItem wDecode 100 wStore2 wObj).2 wObj.parentPath
          wObj.name).map Item.createdAt = some wRow.createdAt
        ∧ (rowAt (UpsertItem wDecode 100 wStore2 wObj).2 wObj.parentPath
            wObj.name).map Item.updatedAt = some (100 : Int))
       ∧ ((rowAt (RenameItem "a/b" "e/f" wStore2).2 "e/" "f").map
            Item.createdAt = some wRow.createdAt
          ∧ (rowAt (RenameItem "a/b" "e/f" wStore2).2 "e/" "f").map
            Item.updatedAt = some wRow.updatedAt)
       ∧ (ModifyItem "a/b" [(("size" : String), Val.i 42)] wStore2).2.map
           (fun r => (r.createdAt, r.updatedAt))
           = wStore2.map (fun r => (r.createdAt, r.updatedAt))) :=
  ⟨⟨by decide, by decide, by decide, by decide, by decide, by decide⟩,
   mutation_timestamps_amended wDecode 100 wStore2 wObj wInfo wRow
     "a/b" "e/f" "a/b" "a/" "b" "e/" "f" wRow [(("size" : String), Val.i 42)]
     (by decide) (by decide) (Or.inl ⟨by decide, by decide⟩)
     (by decide) (by decide) (by decide) (by decide)⟩

/-- The pattern exactly as claim C10 words it: any prefix, then a dot, then
eight [a-f0-9] characters, then the literal ".partial" at the very end. -/
def specPartialPattern (name : String) : Prop :=
  ∃ pre h : List Char,
    name.data = pre ++ '.' :: (h ++ ".partial".data)
    ∧ h.length = 8 ∧ h.all isHexLower = true

/-- The pattern with the one restriction RE2 semantics forces: the prefix
consumed by the dot-star holds no newline. -/
def amendedPartialPattern (name : String) : Prop :=
  ∃ pre h : List Char,
    name.data = pre ++ '.' :: (h ++ ".partial".data)
    ∧ h.length = 8 ∧ h.all isHexLower = true
    ∧ pre.all (fun c => decide (¬ c = '\n')) = true

/-- Counterexample to C10 as stated: a name whose prefix is a newline
satisfies the claim's pattern, yet IsPartialFile returns false because the
dot of Go's RE2 regex does not match a newline. -/
theorem isPartialFile_newline_counterexample :
    IsPartialFile "\n.00000000.partial" = false
    ∧ specPartialPattern "\n.00000000.partial" :=
  ⟨by decide, by
    unfold specPartialPattern
    exact ⟨['\n'], "00000000".data, by decide, by decide, by decide⟩⟩

/-- C10 amended (corrected): IsPartialFile(name) returns true exactly when
name decomposes as a newline-free prefix, a dot, eight [a-f0-9] characters
and the literal ".partial" at the very end; in particular a name with
characters after ".partial" never matches, and neither does one whose
prefix holds a newline. -/
theorem isPartialFile_characterization (name : String) :
    IsPartialFile name = true ↔ amendedPartialPattern name := by
  unfold IsPartialFile amendedPartialPattern
  constructor
  · intro h
    rcases List.any_eq_true.mp h with ⟨i, hi, hcond⟩
    have hcond' := hcond
    simp only [Bool.and_eq_true] at hcond'
    obtain ⟨hpre, htail⟩ := hcond'
    cases hd : List.drop i name.data with
    | nil =>
      rw [hd] at htail
      cases htail
    | cons c rest =>
      rw [hd] at htail
      have htail' := htail
      simp only [tailMatch, Bool.and_eq_true, decide_eq_true_eq] at htail'
      obtain ⟨⟨hdot, hhex⟩, hdrop⟩ := htail'
      have hlen8 : (List.drop 8 rest).length = 8 := by
        rw [hdrop]
        rfl
      have hrestlen : 8 ≤ rest.length := by
        rw [List.length_drop] at hlen8
        omega
      refine ⟨List.take i name.data, List.take 8 rest, ?_, ?_, hhex, hpre⟩
      · have hps : (".partial".data : List Char)
            = ['.', 'p', 'a', 'r', 't', 'i', 'a', 'l'] := rfl
        rw [hps]
        calc name.data
            = List.take i name.data ++ List.drop i name.data :=
              (List.take_append_drop i name.data).symm
          _ = List.take i name.data ++ (c :: rest) := by rw [hd]
          _ = List.take i name.data
              ++ '.' :: (List.take 8 rest ++ List.drop 8 rest) := by
              rw [hdot, List.take_append_drop]
          _ = List.take i name.data
              ++ '.' :: (List.take 8 rest
                  ++ ['.', 'p', 'a', 'r', 't', 'i', 'a', 'l']) := by
              rw [hdrop]
      · rw [List.length_take]
        omega
  · intro h
    rcases h with ⟨pre, hx, hdata, hlen, hhex, hpre⟩
    apply List.any_eq_true.mpr
    refine ⟨pre.length, ?_, ?_⟩
    · apply List.mem_range.mpr
      rw [hdata, List.length_append]
      omega
    · have htake : List.take pre.length name.data = pre := by
        rw [hdata]
        exact List.take_left pre _
      have hdrop : List.drop pre.length name.data
          = '.' :: (hx ++ ".partial".data) := by
        rw [hdata]
        exact List.drop_left pre _
      rw [htake, hdrop]
      have htake8 : List.take 8 (hx ++ ".partial".data) = hx := by
        rw [hlen.symm]
        exact List.take_left hx _
      have hdrop8 : List.drop 8 (hx ++ ".partial".data) = ".partial".data := by
        rw [hlen.symm]
        exact List.drop_left hx _
      simp [tailMatch, htake8, hdrop8, hhex, hpre]
      intro x hxm
      have hx' := List.all_eq_true.mp hpre x hxm
      simpa using hx'

end RclonePlus
